import Mathlib

/-!
Shallow embedding of the TF-IDF document search core of
`skills/experimental/aws-agentcore/scripts/search_docs.py`
(tokenization, inverted index, markdown-aware scoring, snippet extraction),
together with proofs settling the frozen claims about it.

Python strings are modelled as `List Char`; `str.lower` as a character map
(ASCII case folding, which agrees with Python on the ASCII inputs the
claims are about); the dictionaries `doc_frequency` and `doc_indices` as
total functions with the `.get` defaults of the source; floats as real
numbers (the only non-algebraic operation used is `math.log`, and the one
exact float value a claim mentions, `log(1.0) = 0.0`, is exact in both
models).
-/

/-- Character class of the token regex `[A-Za-z0-9_]+` (`_TOKEN`). -/
def isWordChar (c : Char) : Bool :=
  (97 ≤ c.toNat && c.toNat ≤ 122) || (65 ≤ c.toNat && c.toNat ≤ 90) ||
    (48 ≤ c.toNat && c.toNat ≤ 57) || c == '_'

/-- ASCII whitespace recognised by Python `str.strip` / `\s` (space, tab,
newline, carriage return, vertical tab, form feed). -/
def isPySpace (c : Char) : Bool :=
  c == ' ' || c == Char.ofNat 9 || c == Char.ofNat 10 || c == Char.ofNat 13 ||
    c == Char.ofNat 11 || c == Char.ofNat 12

/-- Python `str.lower` (ASCII case folding). -/
def pyLower (s : List Char) : List Char := s.map Char.toLower

/-- Maximal runs of characters satisfying `p`, with an accumulator holding the
current (reversed) run.  `runsGo p s []` is `re.findall` for the character
class `p` as well as Python `str.split()` for `p = not-whitespace`. -/
def runsGo (p : Char → Bool) : List Char → List Char → List (List Char)
  | [], acc => if acc.isEmpty then [] else [acc.reverse]
  | c :: cs, acc =>
    if p c then runsGo p cs (c :: acc)
    else if acc.isEmpty then runsGo p cs []
    else acc.reverse :: runsGo p cs []

/-- `_TOKEN.findall(s)`: the maximal word-character runs of `s`. -/
def pyTokens (s : List Char) : List (List Char) := runsGo isWordChar s []

/-- Python `s.split()` (split on whitespace runs, dropping empty pieces). -/
def pySplitWs (s : List Char) : List (List Char) :=
  runsGo (fun c => !isPySpace c) s []

/-- Scanner for Python `str.count`: left-to-right non-overlapping occurrence
count; after a match the next `sub.length - 1` characters are skipped (the
`skip` argument). -/
def countGo (sub : List Char) : List Char → ℕ → ℕ
  | [], _ => 0
  | _ :: cs, skip + 1 => countGo sub cs skip
  | c :: cs, 0 =>
    if sub.isPrefixOf (c :: cs) then 1 + countGo sub cs (sub.length - 1)
    else countGo sub cs 0

/-- Python `s.count(sub)` (non-overlapping substring count). -/
def pyCount (s sub : List Char) : ℕ :=
  if sub.isEmpty then s.length + 1 else countGo sub s 0

/-- Python `' '.join(l)`. -/
def joinSpace : List (List Char) → List Char
  | [] => []
  | [a] => a
  | a :: b :: t => a ++ ' ' :: joinSpace (b :: t)

/-- The source's `normalize(s)`: collapse whitespace runs to single spaces and
strip the ends (`_WHITESPACE.sub(' ', s).strip()`). -/
def normalizeWs (s : List Char) : List Char := joinSpace (pySplitWs s)

/-- Python `str.strip()`. -/
def pyStrip (s : List Char) : List Char :=
  ((s.dropWhile isPySpace).reverse.dropWhile isPySpace).reverse

/-- Python `str.rstrip()`. -/
def pyRstrip (s : List Char) : List Char :=
  (s.reverse.dropWhile isPySpace).reverse

/-- Python `str.splitlines()` on the line breaks occurring in this code base
(`\n`, `\r\n`, `\r`); no trailing empty line after a final terminator. -/
def splitlinesGo : List Char → List Char → List (List Char)
  | [], acc => if acc.isEmpty then [] else [acc.reverse]
  | '\r' :: '\n' :: rest, acc => acc.reverse :: splitlinesGo rest []
  | '\n' :: rest, acc => acc.reverse :: splitlinesGo rest []
  | '\r' :: rest, acc => acc.reverse :: splitlinesGo rest []
  | c :: rest, acc => splitlinesGo rest (c :: acc)

/-- Python `str.splitlines()`. -/
def pySplitlines (s : List Char) : List (List Char) := splitlinesGo s []

/-- The backtick character (code point 96). -/
def btick : Char := Char.ofNat 96

/-- The three-backtick code fence marker. -/
def fenceMark : List Char := [btick, btick, btick]

/-- One header line for `_MD_HEADER = r'^#{1,6}\s+(.+)$'` (multiline): 1–6
leading `#`, at least one whitespace character, then the captured remainder
of the line (greedy `\s+`, backtracking one character when the line tail is
all whitespace).  The pattern is applied per `\n`-separated line; the rare
reading in which `\s+` itself crosses a newline is not modelled. -/
def headerOfLine (l : List Char) : Option (List Char) :=
  let hashes := l.takeWhile (fun c => c == '#')
  let rest := l.dropWhile (fun c => c == '#')
  if hashes.isEmpty || decide (6 < hashes.length) then none
  else
    match rest with
    | [] => none
    | c :: _ =>
      if isPySpace c then
        let body := rest.dropWhile isPySpace
        if !body.isEmpty then some body
        else if decide (2 ≤ rest.length) then some (rest.drop (rest.length - 1))
        else none
      else none

/-- `_MD_HEADER.findall(content)`. -/
def pyFindHeaders (content : List Char) : List (List Char) :=
  (content.splitOn '\n').filterMap headerOfLine

/-- Split `s` at the first occurrence of the three-backtick marker, returning
the part before it and the part after it. -/
def splitAtMark : List Char → Option (List Char × List Char)
  | [] => none
  | c :: cs =>
    if fenceMark.isPrefixOf (c :: cs) then some ([], (c :: cs).drop 3)
    else
      match splitAtMark cs with
      | none => none
      | some p => some (c :: p.1, p.2)

/-- Try to match `_MD_CODE_BLOCK = r'```[\w]*\n([\s\S]*?)```'` at the head of
`s`; on success return the captured group and the rest of the input after the
closing fence. -/
def tryCode (s : List Char) : Option (List Char × List Char) :=
  if fenceMark.isPrefixOf s then
    match (s.drop 3).dropWhile isWordChar with
    | '\n' :: rest => splitAtMark rest
    | _ => none
  else none

/-- Fuelled scan of `_MD_CODE_BLOCK.findall`: try a match at each position,
resuming after the end of each match.  Each step consumes at least one
character, so fuel equal to the input length never runs out. -/
def codeBlocksGo : ℕ → List Char → List (List Char)
  | 0, _ => []
  | _, [] => []
  | fuel + 1, c :: cs =>
    match tryCode (c :: cs) with
    | some p => p.1 :: codeBlocksGo fuel p.2
    | none => codeBlocksGo fuel cs

/-- `_MD_CODE_BLOCK.findall(content)`. -/
def pyFindCodeBlocks (content : List Char) : List (List Char) :=
  codeBlocksGo content.length content

/-- Try to match `_MD_LINK_TEXT = r'\[([^\]]+)\]\([^)]+\)'` at the head of
`s`; on success return the captured link text and the rest of the input. -/
def tryLink (s : List Char) : Option (List Char × List Char) :=
  match s with
  | '[' :: rest =>
    let t := rest.takeWhile (fun c => !(c == ']'))
    if t.isEmpty then none
    else
      match rest.dropWhile (fun c => !(c == ']')) with
      | ']' :: '(' :: r2 =>
        let u := r2.takeWhile (fun c => !(c == ')'))
        if u.isEmpty then none
        else
          match r2.dropWhile (fun c => !(c == ')')) with
          | ')' :: r4 => some (t, r4)
          | _ => none
      | _ => none
  | _ => none

/-- Fuelled scan of `_MD_LINK_TEXT.findall`. -/
def linksGo : ℕ → List Char → List (List Char)
  | 0, _ => []
  | _, [] => []
  | fuel + 1, c :: cs =>
    match tryLink (c :: cs) with
    | some p => p.1 :: linksGo fuel p.2
    | none => linksGo fuel cs

/-- `_MD_LINK_TEXT.findall(content)`. -/
def pyFindLinks (content : List Char) : List (List Char) :=
  linksGo content.length content

/-- Fuelled scan of `_CODE_FENCE.sub('', text)` (`r'```.*?```'`, DOTALL):
delete each lazily matched fenced span; an opener with no closer is left in
place (no later match can exist in that case). -/
def stripFencesGo : ℕ → List Char → List Char
  | 0, s => s
  | _, [] => []
  | fuel + 1, c :: cs =>
    if fenceMark.isPrefixOf (c :: cs) then
      match splitAtMark ((c :: cs).drop 3) with
      | some p => stripFencesGo fuel p.2
      | none => c :: cs
    else c :: stripFencesGo fuel cs

/-- `_CODE_FENCE.sub('', text)`. -/
def stripFences (text : List Char) : List Char :=
  stripFencesGo text.length text

/-- A single indexed document (dataclass `Doc`). -/
structure Doc where
  uri : List Char
  display_title : List Char
  content : List Char
  index_title : List Char
deriving DecidableEq

/-- A fetched documentation page (dataclass `Page`); only `content` is used
by `make_snippet`. -/
structure Page where
  url : List Char
  title : List Char
  content : List Char
deriving DecidableEq

/-- Default document used to model the (never failing, on reachable states)
list indexing `self.docs[idx]`. -/
def emptyDoc : Doc := ⟨[], [], [], []⟩

/-- The composite lowercased haystack built by `IndexSearch.add`:
`' '.join([title_text, headers.lower(), link_text.lower(),
code_blocks.lower(), content])`. -/
def haystack (d : Doc) : List Char :=
  joinSpace [pyLower d.index_title,
    pyLower (joinSpace (pyFindHeaders d.content)),
    pyLower (joinSpace (pyFindLinks d.content)),
    pyLower (joinSpace (pyFindCodeBlocks d.content)),
    pyLower d.content]

/-- The inverted-index state of class `IndexSearch`; the two dictionaries are
modelled as total functions with the source's `.get` defaults (`0` and
`[]`). -/
structure IndexSearch where
  docs : List Doc
  doc_frequency : List Char → ℕ
  doc_indices : List Char → List ℕ

/-- A freshly constructed `IndexSearch()`. -/
def IndexSearch.empty : IndexSearch := ⟨[], fun _ => 0, fun _ => []⟩

/-- State threaded through the token loop of `IndexSearch.add`. -/
structure AddState where
  di : List Char → List ℕ
  df : List Char → ℕ
  seen : List (List Char)

/-- One iteration of the token loop of `IndexSearch.add`: always append the
ordinal to the postings list, and bump `doc_frequency` only on the first
sight of the token in this call. -/
def addTok (idx : ℕ) (st : AddState) (tok : List Char) : AddState :=
  let di' := fun t => if t = tok then st.di t ++ [idx] else st.di t
  if tok ∈ st.seen then { st with di := di' }
  else
    { di := di',
      df := fun t => if t = tok then st.df t + 1 else st.df t,
      seen := tok :: st.seen }

/-- `IndexSearch.add(doc)`. -/
def IndexSearch.add (s : IndexSearch) (doc : Doc) : IndexSearch :=
  let idx := s.docs.length
  let st := (pyTokens (haystack doc)).foldl (addTok idx)
    ⟨s.doc_indices, s.doc_frequency, []⟩
  { docs := s.docs ++ [doc], doc_frequency := st.df, doc_indices := st.di }

/-- The index obtained from a fresh `IndexSearch()` by adding the given
documents in order. -/
def ofDocs (ds : List Doc) : IndexSearch :=
  ds.foldl IndexSearch.add IndexSearch.empty

/-- Title boost constant `_TITLE_BOOST_EMPTY`. -/
def TITLE_BOOST_EMPTY : ℕ := 8

/-- Title boost constant `_TITLE_BOOST_SHORT`. -/
def TITLE_BOOST_SHORT : ℕ := 5

/-- Title boost constant `_TITLE_BOOST_LONG`. -/
def TITLE_BOOST_LONG : ℕ := 3

/-- Short-page character threshold `_SHORT_PAGE_THRESHOLD`. -/
def SHORT_PAGE_THRESHOLD : ℕ := 800

/-- `_title_boost_for(doc)` from `IndexSearch.search`. -/
def title_boost_for (d : Doc) : ℕ :=
  if d.content.length = 0 then TITLE_BOOST_EMPTY
  else if d.content.length < SHORT_PAGE_THRESHOLD then TITLE_BOOST_SHORT
  else TITLE_BOOST_LONG

/-- `_calculate_md_score(doc, token)`: weighted term frequency (the source
returns this integer as a float). -/
def calculate_md_score (d : Doc) (token : List Char) : ℕ :=
  pyCount (pyLower d.content) token
    + pyCount (pyLower d.index_title) token * title_boost_for d
    + ((pyFindHeaders d.content).map (fun h => pyCount (pyLower h) token * 4)).sum
    + ((pyFindCodeBlocks d.content).map (fun c => pyCount (pyLower c) token * 2)).sum
    + ((pyFindLinks d.content).map (fun l => pyCount (pyLower l) token * 2)).sum

/-- Inverse document frequency `math.log((N + 1) / (1 + df)) + 1.0`. -/
noncomputable def idf (n df : ℕ) : ℝ :=
  Real.log ((n + 1) / (1 + df)) + 1

/-- Query tokenization `[t.lower() for t in _TOKEN.findall(query)]`. -/
def qTokens (query : List Char) : List (List Char) :=
  (pyTokens query).map pyLower

/-- The dict update `scores[idx] = scores.get(idx, 0.0) + v`: an existing key
keeps its position, a new key is appended (Python dicts preserve insertion
order). -/
def bump (sc : List (ℕ × ℝ)) (i : ℕ) (v : ℝ) : List (ℕ × ℝ) :=
  if (sc.map Prod.fst).contains i then
    sc.map (fun p => if p.1 = i then (p.1, p.2 + v) else p)
  else sc ++ [(i, v)]

/-- The `scores` accumulation loop of `IndexSearch.search`. -/
noncomputable def scoresList (s : IndexSearch) (query : List Char) :
    List (ℕ × ℝ) :=
  (qTokens query).foldl
    (fun acc qt =>
      (s.doc_indices qt).foldl
        (fun acc2 i =>
          bump acc2 i ((calculate_md_score (s.docs.getD i emptyDoc) qt : ℝ) *
            idf (max s.docs.length 1) (s.doc_frequency qt)))
        acc)
    []

/-- The `ranked` list of `IndexSearch.search`: `(score, doc)` pairs, stably
sorted by descending score (`sorted(..., key=score, reverse=True)`). -/
noncomputable def rankedList (s : IndexSearch) (query : List Char) :
    List (ℝ × Doc) :=
  ((scoresList s query).map (fun p => (p.2, s.docs.getD p.1 emptyDoc))).mergeSort
    (fun a b => decide (b.1 ≤ a.1))

/-- Python list slicing `l[:k]` for an arbitrary integer `k`. -/
def pyTake (k : ℤ) (l : List α) : List α :=
  l.take (if 0 ≤ k then k.toNat else ((l.length : ℤ) + k).toNat)

/-- `IndexSearch.search(query, k)`: `ranked[:k]`. -/
noncomputable def IndexSearch.search (s : IndexSearch) (query : List Char)
    (k : ℤ) : List (ℝ × Doc) :=
  pyTake k (rankedList s query)

/-- Ellipsis marker `'...'` appended by `make_snippet`. -/
def ellipsis : List Char := ['.', '.', '.']

/-- Test for `re.match(r'^\d+\.', s)`: one or more digits followed by a
dot. -/
def startsNumbered (l : List Char) : Bool :=
  let ds := l.takeWhile Char.isDigit
  !ds.isEmpty && ((l.drop ds.length).headD ' ' == '.')

/-- The skip test of the paragraph loop of `make_snippet`: after `lstrip`,
a heading, bullet, or numbered-list line. -/
def snippetSkipLine (line : List Char) : Bool :=
  let nl := line.dropWhile isPySpace
  match nl with
  | '#' :: _ => true
  | '-' :: _ => true
  | '*' :: _ => true
  | _ => startsNumbered nl

/-- The paragraph loop of `make_snippet`: returns the single paragraph it may
append to `paras` together with the final `buf`. -/
def snippetLoop : List (List Char) → List (List Char) →
    Option (List Char) × List (List Char)
  | [], buf => (none, buf)
  | line :: rest, buf =>
    if snippetSkipLine line then
      if !buf.isEmpty then (none, buf) else snippetLoop rest buf
    else
      let buf' := buf ++ [line]
      if 120 ≤ (joinSpace buf').length || (line.getLastD ' ' == '.') then
        (some (joinSpace buf'), buf')
      else snippetLoop rest buf'

/-- The cleaned, stripped, non-empty lines `make_snippet` works on. -/
def linesOf (pg : Page) : List (List Char) :=
  ((pySplitlines (stripFences (pyStrip pg.content))).map pyStrip).filter
    (fun l => !l.isEmpty)

/-- The lead-line drop test of `make_snippet`: a heading line, or a line whose
normalized lowercase form starts with the normalized lowercase display
title. -/
def dropLeadLine (first display_title : List Char) : Bool :=
  (first.headD ' ' == '#') ||
    (pyLower (normalizeWs display_title)).isPrefixOf (pyLower (normalizeWs first))

/-- The final truncation step of `make_snippet`: if the snippet exceeds
`max_chars`, cut to `max_chars - 1` characters, trim trailing whitespace and
append the ellipsis marker. -/
def truncateSnippet (t : List Char) (max_chars : ℕ) : List Char :=
  if (max_chars : ℤ) < (t.length : ℤ) then
    pyRstrip (pyTake ((max_chars : ℤ) - 1) t) ++ ellipsis
  else t

/-- `make_snippet(page, display_title, max_chars)`. -/
def make_snippet (page : Option Page) (display_title : List Char)
    (max_chars : ℕ) : List Char :=
  match page with
  | none => display_title
  | some pg =>
    if pg.content.isEmpty then display_title
    else
      let lines0 := linesOf pg
      let lines :=
        match lines0 with
        | [] => lines0
        | first :: rest => if dropLeadLine first display_title then rest else lines0
      let r := snippetLoop lines []
      let snippet :=
        match r.1 with
        | some p => p
        | none => if !r.2.isEmpty then joinSpace r.2 else display_title
      truncateSnippet (joinSpace (pySplitWs snippet)) max_chars

/-- The tail of the `make_snippet` pipeline run on an explicit list of lines
(paragraph loop, fallbacks, whitespace normalisation, truncation); used to
state that the lead title line is dropped. -/
def snippetFromLines (lines : List (List Char)) (display_title : List Char)
    (max_chars : ℕ) : List Char :=
  let r := snippetLoop lines []
  let snippet :=
    match r.1 with
    | some p => p
    | none => if !r.2.isEmpty then joinSpace r.2 else display_title
  truncateSnippet (joinSpace (pySplitWs snippet)) max_chars

/-- Example document whose content repeats the token `hello`. -/
def dHH : Doc := ⟨"u".toList, "t".toList, "hello hello".toList, "t".toList⟩

/-- Example document with content `hello world`. -/
def dHW : Doc := ⟨"u".toList, "t".toList, "hello world".toList, "guide".toList⟩

/-- Example document whose plain content contains `fox` exactly once and
whose index title does not. -/
def dFox : Doc :=
  ⟨"u".toList, "Fox Guide".toList, "the quick brown fox".toList, "guide".toList⟩

/-- Example page with a long single-sentence body. -/
def pgLong : Page := ⟨[], [], "abcdefghijklmnopqrs.".toList⟩

/-- Example page whose whole body is exactly the display title line. -/
def pgTitle : Page := ⟨[], [], "Title".toList⟩

/-- Example page whose first line duplicates the display title. -/
def pgTitleMore : Page := ⟨[], [], "Title\nMore text here.".toList⟩

/-! ### Tokenizer lemmas -/

/-- A separator rejected by `p` splits a `runsGo` scan. -/
theorem runsGo_append_sep {p : Char → Bool} {sep : Char} (hsep : p sep = false)
    (b : List Char) :
    ∀ (a : List Char) (acc : List Char),
      runsGo p (a ++ sep :: b) acc = runsGo p a acc ++ runsGo p b [] := by
  intro a
  induction a with
  | nil =>
    intro acc
    by_cases ha : acc.isEmpty <;> simp [runsGo, hsep, ha]
  | cons c a ih =>
    intro acc
    by_cases hc : p c
    · simp [runsGo, hc, ih (c :: acc)]
    · by_cases ha : acc.isEmpty <;> simp [runsGo, hc, ha, ih []]

/-- Structure of the members of a `runsGo` scan: nonempty, and an infix of the
input (possibly completed on the left by the pending accumulator). -/
theorem mem_runsGo {p : Char → Bool} :
    ∀ (s acc t : List Char), t ∈ runsGo p s acc →
      t ≠ [] ∧ (t <:+: s ∨ ∃ u, u <+: s ∧ t = acc.reverse ++ u) := by
  intro s
  induction s with
  | nil =>
    intro acc t ht
    by_cases ha : acc.isEmpty
    · simp [runsGo, ha] at ht
    · simp [runsGo, ha] at ht
      subst ht
      have hane : acc ≠ [] := by simpa [List.isEmpty_iff] using ha
      exact ⟨by simpa using hane, Or.inr ⟨[], List.nil_prefix, by simp⟩⟩
  | cons c cs ih =>
    intro acc t ht
    by_cases hc : p c
    · rw [show runsGo p (c :: cs) acc = runsGo p cs (c :: acc) by
        simp [runsGo, hc]] at ht
      obtain ⟨hne, hrest⟩ := ih (c :: acc) t ht
      refine ⟨hne, ?_⟩
      rcases hrest with h | ⟨u, hu, he⟩
      · exact Or.inl (List.infix_cons_iff.mpr (Or.inr h))
      · exact Or.inr ⟨c :: u, List.cons_prefix_cons.mpr ⟨rfl, hu⟩,
          by simpa [List.append_assoc] using he⟩
    · by_cases ha : acc.isEmpty
      · rw [show runsGo p (c :: cs) acc = runsGo p cs [] by
          simp [runsGo, hc, ha]] at ht
        obtain ⟨hne, hrest⟩ := ih [] t ht
        refine ⟨hne, Or.inl ?_⟩
        rcases hrest with h | ⟨u, hu, he⟩
        · exact List.infix_cons_iff.mpr (Or.inr h)
        · simp only [List.reverse_nil, List.nil_append] at he
          subst he
          exact List.infix_cons_iff.mpr (Or.inr hu.isInfix)
      · rw [show runsGo p (c :: cs) acc = acc.reverse :: runsGo p cs [] by
          simp [runsGo, hc, ha]] at ht
        rcases List.mem_cons.mp ht with rfl | ht'
        · have hane : acc ≠ [] := by simpa [List.isEmpty_iff] using ha
          exact ⟨by simpa using hane, Or.inr ⟨[], List.nil_prefix, by simp⟩⟩
        · obtain ⟨hne, hrest⟩ := ih [] t ht'
          refine ⟨hne, Or.inl ?_⟩
          rcases hrest with h | ⟨u, hu, he⟩
          · exact List.infix_cons_iff.mpr (Or.inr h)
          · simp only [List.reverse_nil, List.nil_append] at he
            subst he
            exact List.infix_cons_iff.mpr (Or.inr hu.isInfix)

/-- A token found by `_TOKEN.findall` is nonempty. -/
theorem mem_pyTokens_ne_nil {s t : List Char} (h : t ∈ pyTokens s) : t ≠ [] :=
  (mem_runsGo s [] t h).1

/-- A token found by `_TOKEN.findall` occurs contiguously in the input. -/
theorem mem_pyTokens_contiguous {s t : List Char} (h : t ∈ pyTokens s) : t <:+: s := by
  rcases (mem_runsGo s [] t h).2 with h' | ⟨u, hu, he⟩
  · exact h'
  · simp only [List.reverse_nil, List.nil_append] at he
    subst he
    exact hu.isInfix

/-! ### Substring-count lemmas -/

/-- The count scanner finds at least one occurrence of any infix. -/
theorem countGo_pos {sub : List Char} :
    ∀ s : List Char, sub <:+: s → sub ≠ [] → 1 ≤ countGo sub s 0 := by
  intro s
  induction s with
  | nil =>
    intro hinf hne
    exact absurd (List.eq_nil_of_infix_nil hinf) hne
  | cons c cs ih =>
    intro hinf hne
    by_cases hp : sub.isPrefixOf (c :: cs)
    · simp [countGo, hp]
    · rcases List.infix_cons_iff.mp hinf with h | h
      · exact absurd (List.isPrefixOf_iff_prefix.mpr h) hp
      · simpa [countGo, hp] using ih h hne

/-- `str.count` is positive on any nonempty infix. -/
theorem pyCount_pos {s sub : List Char} (hne : sub ≠ []) (hinf : sub <:+: s) :
    1 ≤ pyCount s sub := by
  unfold pyCount
  rw [if_neg (by simpa [List.isEmpty_iff] using hne)]
  exact countGo_pos s hinf hne

/-- A string in which `sub` does not occur as a substring contributes no
token equal to `sub`. -/
theorem not_mem_pyTokens_of_pyCount_zero {s sub : List Char}
    (h : pyCount s sub = 0) : sub ∉ pyTokens s := by
  intro hmem
  have h1 := mem_pyTokens_ne_nil hmem
  have h2 := mem_pyTokens_contiguous hmem
  have := pyCount_pos h1 h2
  omega

/-! ### Lowercasing and joining -/

/-- `str.lower` distributes over `' '.join`. -/
theorem pyLower_joinSpace : ∀ l : List (List Char),
    pyLower (joinSpace l) = joinSpace (l.map pyLower) := by
  intro l
  induction l with
  | nil => rfl
  | cons a t ih =>
    cases t with
    | nil => rfl
    | cons b t' =>
      show pyLower (a ++ ' ' :: joinSpace (b :: t')) =
        pyLower a ++ ' ' :: joinSpace ((b :: t').map pyLower)
      rw [← ih]
      have hsp : Char.toLower ' ' = ' ' := rfl
      simp [pyLower, hsp]

/-- A `runsGo` scan of a space-join is the concatenation of the scans of the
pieces (for a predicate rejecting the space character). -/
theorem runsGo_joinSpace {p : Char → Bool} (hsp : p ' ' = false) :
    ∀ l : List (List Char),
      runsGo p (joinSpace l) [] = (l.map (fun x => runsGo p x [])).flatten := by
  intro l
  induction l with
  | nil => rfl
  | cons a t ih =>
    cases t with
    | nil => simp [joinSpace]
    | cons b t' =>
      show runsGo p (a ++ ' ' :: joinSpace (b :: t')) [] = _
      rw [runsGo_append_sep hsp _ a [], ih]
      rfl

/-- `_TOKEN.findall` of a space-join is the concatenation of the per-piece
token lists. -/
theorem pyTokens_joinSpace (l : List (List Char)) :
    pyTokens (joinSpace l) = (l.map pyTokens).flatten :=
  runsGo_joinSpace (by decide) l

/-! ### Haystack decomposition and term-frequency positivity -/

/-- The tokens of the haystack decompose into the tokens of its five
lowercased components (index title, headers, link texts, code blocks,
content). -/
theorem pyTokens_haystack (d : Doc) :
    pyTokens (haystack d) =
      pyTokens (pyLower d.index_title)
        ++ ((pyFindHeaders d.content).map (fun h => pyTokens (pyLower h))).flatten
        ++ ((pyFindLinks d.content).map (fun l => pyTokens (pyLower l))).flatten
        ++ ((pyFindCodeBlocks d.content).map (fun c => pyTokens (pyLower c))).flatten
        ++ pyTokens (pyLower d.content) := by
  unfold haystack
  rw [show joinSpace [pyLower d.index_title,
      pyLower (joinSpace (pyFindHeaders d.content)),
      pyLower (joinSpace (pyFindLinks d.content)),
      pyLower (joinSpace (pyFindCodeBlocks d.content)),
      pyLower d.content] =
    pyLower d.index_title ++ ' ' ::
      (pyLower (joinSpace (pyFindHeaders d.content)) ++ ' ' ::
        (pyLower (joinSpace (pyFindLinks d.content)) ++ ' ' ::
          (pyLower (joinSpace (pyFindCodeBlocks d.content)) ++ ' ' ::
            pyLower d.content))) from rfl]
  have hw : isWordChar ' ' = false := by decide
  unfold pyTokens
  rw [runsGo_append_sep hw, runsGo_append_sep hw, runsGo_append_sep hw,
    runsGo_append_sep hw]
  rw [show (runsGo isWordChar (pyLower (joinSpace (pyFindHeaders d.content))) []) =
      pyTokens (pyLower (joinSpace (pyFindHeaders d.content))) from rfl]
  rw [show (runsGo isWordChar (pyLower (joinSpace (pyFindLinks d.content))) []) =
      pyTokens (pyLower (joinSpace (pyFindLinks d.content))) from rfl]
  rw [show (runsGo isWordChar (pyLower (joinSpace (pyFindCodeBlocks d.content))) []) =
      pyTokens (pyLower (joinSpace (pyFindCodeBlocks d.content))) from rfl]
  rw [pyLower_joinSpace, pyLower_joinSpace, pyLower_joinSpace,
    pyTokens_joinSpace, pyTokens_joinSpace, pyTokens_joinSpace]
  simp only [List.map_map, List.append_assoc]
  rfl

/-- The title boost is at least the long-page boost `3`. -/
theorem title_boost_for_ge (d : Doc) : 3 ≤ title_boost_for d := by
  unfold title_boost_for TITLE_BOOST_EMPTY TITLE_BOOST_SHORT TITLE_BOOST_LONG
  split_ifs <;> omega

/-- A member of a list of naturals is at most its sum. -/
theorem le_sum_of_mem {l : List ℕ} {a : ℕ} (h : a ∈ l) : a ≤ l.sum :=
  List.single_le_sum (fun x _ => Nat.zero_le x) a h

/-- A token of the haystack has weighted term frequency at least `1`: it
occurs in one of the five components, whose contribution is counted with
weight at least `1`. -/
theorem calculate_md_score_pos {d : Doc} {qt : List Char}
    (h : qt ∈ pyTokens (haystack d)) : 1 ≤ calculate_md_score d qt := by
  have hcomp := h
  rw [pyTokens_haystack] at hcomp
  unfold calculate_md_score
  simp only [List.mem_append] at hcomp
  rcases hcomp with (((h1 | h2) | h3) | h4) | h5
  · have hc : 1 ≤ pyCount (pyLower d.index_title) qt :=
      pyCount_pos (mem_pyTokens_ne_nil h1) (mem_pyTokens_contiguous h1)
    have hb := title_boost_for_ge d
    have : 1 ≤ pyCount (pyLower d.index_title) qt * title_boost_for d :=
      Nat.one_le_iff_ne_zero.mpr (Nat.mul_ne_zero (by omega) (by omega))
    omega
  · rw [List.mem_flatten] at h2
    obtain ⟨tl, htl, hqt⟩ := h2
    rw [List.mem_map] at htl
    obtain ⟨h0, hh0, rfl⟩ := htl
    have hc : 1 ≤ pyCount (pyLower h0) qt :=
      pyCount_pos (mem_pyTokens_ne_nil hqt) (mem_pyTokens_contiguous hqt)
    have hmem : pyCount (pyLower h0) qt * 4 ∈
        (pyFindHeaders d.content).map (fun h => pyCount (pyLower h) qt * 4) :=
      List.mem_map_of_mem _ hh0
    have := le_sum_of_mem hmem
    omega
  · rw [List.mem_flatten] at h3
    obtain ⟨tl, htl, hqt⟩ := h3
    rw [List.mem_map] at htl
    obtain ⟨l0, hl0, rfl⟩ := htl
    have hc : 1 ≤ pyCount (pyLower l0) qt :=
      pyCount_pos (mem_pyTokens_ne_nil hqt) (mem_pyTokens_contiguous hqt)
    have hmem : pyCount (pyLower l0) qt * 2 ∈
        (pyFindLinks d.content).map (fun l => pyCount (pyLower l) qt * 2) :=
      List.mem_map_of_mem _ hl0
    have := le_sum_of_mem hmem
    omega
  · rw [List.mem_flatten] at h4
    obtain ⟨tl, htl, hqt⟩ := h4
    rw [List.mem_map] at htl
    obtain ⟨c0, hc0, rfl⟩ := htl
    have hc : 1 ≤ pyCount (pyLower c0) qt :=
      pyCount_pos (mem_pyTokens_ne_nil hqt) (mem_pyTokens_contiguous hqt)
    have hmem : pyCount (pyLower c0) qt * 2 ∈
        (pyFindCodeBlocks d.content).map (fun c => pyCount (pyLower c) qt * 2) :=
      List.mem_map_of_mem _ hc0
    have := le_sum_of_mem hmem
    omega
  · have hc : 1 ≤ pyCount (pyLower d.content) qt :=
      pyCount_pos (mem_pyTokens_ne_nil h5) (mem_pyTokens_contiguous h5)
    omega

/-- When the document frequency does not exceed the document count, the
inverse document frequency is at least `1`. -/
theorem one_le_idf {n df : ℕ} (h : df ≤ n) : (1 : ℝ) ≤ idf n df := by
  unfold idf
  have h2 : (0 : ℝ) < 1 + (df : ℝ) := by positivity
  have h3 : (1 : ℝ) + (df : ℝ) ≤ (n : ℝ) + 1 := by
    have : (df : ℝ) ≤ (n : ℝ) := Nat.cast_le.mpr h
    linarith
  have := Real.log_nonneg ((one_le_div h2).mpr h3)
  linarith

/-! ### Characterization of `add` -/

/-- The postings update performed by one step of the token loop. -/
theorem addTok_di (idx : ℕ) (st : AddState) (tok t : List Char) :
    (addTok idx st tok).di t = if t = tok then st.di t ++ [idx] else st.di t := by
  unfold addTok
  split <;> rfl

/-- The document-frequency update performed by one step of the token loop. -/
theorem addTok_df (idx : ℕ) (st : AddState) (tok t : List Char) :
    (addTok idx st tok).df t =
      if tok ∈ st.seen then st.df t
      else if t = tok then st.df t + 1 else st.df t := by
  unfold addTok
  split <;> simp_all

/-- The seen-set update performed by one step of the token loop. -/
theorem addTok_seen (idx : ℕ) (st : AddState) (tok : List Char) :
    (addTok idx st tok).seen =
      if tok ∈ st.seen then st.seen else tok :: st.seen := by
  unfold addTok
  split <;> simp_all

/-- Folding the token loop appends the ordinal to `postings[t]` once per
occurrence of `t` in the token list. -/
theorem foldl_addTok_di (idx : ℕ) :
    ∀ (toks : List (List Char)) (st : AddState) (t : List Char),
      (toks.foldl (addTok idx) st).di t =
        st.di t ++ List.replicate (toks.count t) idx := by
  intro toks
  induction toks with
  | nil => intro st t; simp
  | cons tok rest ih =>
    intro st t
    rw [List.foldl_cons, ih, addTok_di]
    by_cases ht : t = tok
    · subst ht
      rw [if_pos rfl, List.count_cons_self, List.append_assoc]
      simp [List.replicate_succ]
    · rw [if_neg ht, List.count_cons_of_ne (fun h => ht h) ]

/-- Folding the token loop bumps `documentFrequency[t]` by one exactly when
`t` occurs in the token list and was not seen before. -/
theorem foldl_addTok_df (idx : ℕ) :
    ∀ (toks : List (List Char)) (st : AddState) (t : List Char),
      (toks.foldl (addTok idx) st).df t =
        st.df t + (if t ∈ toks ∧ t ∉ st.seen then 1 else 0) := by
  intro toks
  induction toks with
  | nil => intro st t; simp
  | cons tok rest ih =>
    intro st t
    rw [List.foldl_cons, ih, addTok_df, addTok_seen]
    by_cases hs : tok ∈ st.seen
    · simp only [if_pos hs]
      by_cases ht : t = tok
      · subst ht
        simp [hs]
      · simp [List.mem_cons, ht]
    · simp only [if_neg hs]
      by_cases ht : t = tok
      · subst ht
        simp [hs, List.mem_cons]
      · simp only [List.mem_cons, ht, false_or, if_neg ht]
        by_cases hr : t ∈ rest <;> by_cases hts : t ∈ st.seen <;>
          simp [hr, hts, ht]

/-- `add` leaves previously stored documents in place and appends the new
one. -/
theorem add_docs (s : IndexSearch) (d : Doc) :
    (s.add d).docs = s.docs ++ [d] := rfl

/-- `add` appends the new ordinal to `postings[t]` once per occurrence of `t`
among the haystack's tokens. -/
theorem add_di (s : IndexSearch) (d : Doc) (t : List Char) :
    (s.add d).doc_indices t =
      s.doc_indices t ++
        List.replicate ((pyTokens (haystack d)).count t) s.docs.length := by
  unfold IndexSearch.add
  exact foldl_addTok_di s.docs.length (pyTokens (haystack d)) _ t

/-- `add` increments `documentFrequency[t]` by one exactly when `t` is a
token of the haystack, and leaves it unchanged otherwise. -/
theorem add_df (s : IndexSearch) (d : Doc) (t : List Char) :
    (s.add d).doc_frequency t =
      s.doc_frequency t + (if t ∈ pyTokens (haystack d) then 1 else 0) := by
  have h := foldl_addTok_df s.docs.length (pyTokens (haystack d))
    ⟨s.doc_indices, s.doc_frequency, []⟩ t
  simp only [List.not_mem_nil, not_false_iff, and_true] at h
  exact h

/-! ### Indexes reachable by a sequence of `add` calls -/

/-- Adding one more document to a built index. -/
theorem ofDocs_concat (ds : List Doc) (d : Doc) :
    ofDocs (ds ++ [d]) = (ofDocs ds).add d := by
  unfold ofDocs
  exact List.foldl_concat IndexSearch.add IndexSearch.empty d ds

/-- The stored document list of a built index is the list of added
documents, in order. -/
theorem ofDocs_docs (ds : List Doc) : (ofDocs ds).docs = ds := by
  induction ds using List.reverseRecOn with
  | nil => rfl
  | append_singleton ds d ih => rw [ofDocs_concat, add_docs, ih]

/-- Every ordinal in a postings list of a built index points to a stored
document whose haystack contains the token. -/
theorem mem_ofDocs_di (ds : List Doc) (t : List Char) :
    ∀ i ∈ (ofDocs ds).doc_indices t,
      ∃ d, ds[i]? = some d ∧ t ∈ pyTokens (haystack d) := by
  induction ds using List.reverseRecOn with
  | nil => intro i hi; simp [ofDocs, IndexSearch.empty] at hi
  | append_singleton ds d ih =>
    intro i hi
    rw [ofDocs_concat, add_di, ofDocs_docs] at hi
    rcases List.mem_append.mp hi with h | h
    · obtain ⟨d', hd', htok⟩ := ih i h
      have hlt : i < ds.length := by
        by_contra hge
        rw [List.getElem?_eq_none (by omega)] at hd'
        exact Option.noConfusion hd'
      refine ⟨d', ?_, htok⟩
      rw [List.getElem?_append, if_pos hlt]
      exact hd'
    · obtain ⟨hcnt, rfl⟩ := List.mem_replicate.mp h
      refine ⟨d, List.getElem?_concat_length ds d, ?_⟩
      exact List.count_pos_iff.mp (Nat.pos_of_ne_zero hcnt)

/-- Invariants of a built index: `documentFrequency[t]` counts the distinct
ordinals in `postings[t]`, every ordinal is in range, and the postings list
is sorted. -/
theorem ofDocs_inv (ds : List Doc) (t : List Char) :
    (ofDocs ds).doc_frequency t = ((ofDocs ds).doc_indices t).toFinset.card ∧
      (∀ i ∈ (ofDocs ds).doc_indices t, i < ds.length) ∧
      List.Sorted (· ≤ ·) ((ofDocs ds).doc_indices t) := by
  induction ds using List.reverseRecOn with
  | nil =>
    refine ⟨rfl, ?_, ?_⟩
    · intro i hi; simp [ofDocs, IndexSearch.empty] at hi
    · simp [ofDocs, IndexSearch.empty]
  | append_singleton ds d ih =>
    obtain ⟨ih1, ih2, ih3⟩ := ih
    rw [ofDocs_concat, add_di, add_df, ofDocs_docs]
    refine ⟨?_, ?_, ?_⟩
    · by_cases hmem : t ∈ pyTokens (haystack d)
      · have hcnt : (pyTokens (haystack d)).count t ≠ 0 := by
          have := List.count_pos_iff.mpr hmem
          omega
        rw [if_pos hmem, List.toFinset_append,
          List.toFinset_replicate_of_ne_zero hcnt]
        have hnot : ds.length ∉ ((ofDocs ds).doc_indices t).toFinset := by
          intro hin
          have := ih2 _ (List.mem_toFinset.mp hin)
          omega
        have hins : ((ofDocs ds).doc_indices t).toFinset ∪ {ds.length} =
            insert ds.length ((ofDocs ds).doc_indices t).toFinset := by
          ext x
          simp [Finset.mem_union, Finset.mem_insert, or_comm]
        rw [hins, Finset.card_insert_of_not_mem hnot, ih1]
      · have hcnt : (pyTokens (haystack d)).count t = 0 :=
          List.count_eq_zero.mpr hmem
        rw [if_neg hmem, hcnt, List.replicate_zero, List.append_nil, ih1,
          Nat.add_zero]
    · intro i hi
      rw [List.length_append, List.length_singleton]
      rcases List.mem_append.mp hi with h | h
      · have := ih2 i h
        omega
      · have := (List.mem_replicate.mp h).2
        omega
    · rw [List.Sorted, List.pairwise_append]
      refine ⟨ih3, ?_, ?_⟩
      · rw [List.pairwise_replicate]
        exact Or.inr le_rfl
      · intro a ha b hb
        have h1 := ih2 a ha
        have h2 := (List.mem_replicate.mp hb).2
        omega

/-- The document frequency of a token never exceeds the number of stored
documents. -/
theorem ofDocs_df_le (ds : List Doc) (t : List Char) :
    (ofDocs ds).doc_frequency t ≤ ds.length := by
  obtain ⟨h1, h2, _⟩ := ofDocs_inv ds t
  rw [h1]
  have hsub : ((ofDocs ds).doc_indices t).toFinset ⊆ Finset.range ds.length :=
    fun i hi => Finset.mem_range.mpr (h2 i (List.mem_toFinset.mp hi))
  calc ((ofDocs ds).doc_indices t).toFinset.card
      ≤ (Finset.range ds.length).card := Finset.card_le_card hsub
    _ = ds.length := Finset.card_range _

/-! ### Score accumulation invariants -/

/-- A `bump` with a positive value preserves "every entry has positive score
and a key satisfying `Q`", provided the bumped key satisfies `Q`. -/
theorem mem_bump_pres {Q : ℕ → Prop} {sc : List (ℕ × ℝ)} {i : ℕ} {v : ℝ}
    (hv : 0 < v) (hQ : Q i) (h : ∀ p ∈ sc, 0 < p.2 ∧ Q p.1) :
    ∀ p ∈ bump sc i v, 0 < p.2 ∧ Q p.1 := by
  unfold bump
  split
  · intro p hp
    rw [List.mem_map] at hp
    obtain ⟨p0, hp0, rfl⟩ := hp
    obtain ⟨hpos, hq⟩ := h p0 hp0
    by_cases he : p0.1 = i
    · rw [if_pos he]
      exact ⟨by simpa using by linarith, he ▸ hq⟩
    · rw [if_neg he]
      exact ⟨hpos, hq⟩
  · intro p hp
    rcases List.mem_append.mp hp with h' | h'
    · exact h p h'
    · rw [List.mem_singleton] at h'
      subst h'
      exact ⟨hv, hQ⟩

/-- Every entry of the accumulated `scores` of a built index has a strictly
positive score, and its key occurs in the postings list of some query
token. -/
theorem mem_scoresList (ds : List Doc) (query : List Char) :
    ∀ p ∈ scoresList (ofDocs ds) query,
      0 < p.2 ∧ ∃ qt ∈ qTokens query, p.1 ∈ (ofDocs ds).doc_indices qt := by
  unfold scoresList
  refine List.foldlRecOn
    (motive := fun (acc : List (ℕ × ℝ)) => ∀ p ∈ acc,
      0 < p.2 ∧ ∃ qt ∈ qTokens query, p.1 ∈ (ofDocs ds).doc_indices qt)
    (qTokens query) _ [] ?_ ?_
  · intro p hp
    simp at hp
  · intro acc hacc qt hqt
    refine List.foldlRecOn
      (motive := fun (acc : List (ℕ × ℝ)) => ∀ p ∈ acc,
        0 < p.2 ∧ ∃ qt ∈ qTokens query, p.1 ∈ (ofDocs ds).doc_indices qt)
      ((ofDocs ds).doc_indices qt) _ acc hacc ?_
    intro acc2 hacc2 i hi
    refine mem_bump_pres
      (Q := fun n => ∃ qt ∈ qTokens query, n ∈ (ofDocs ds).doc_indices qt)
      ?_ ⟨qt, hqt, hi⟩ hacc2
    obtain ⟨d', hd', htok⟩ := mem_ofDocs_di ds qt i hi
    have hgetD : (ofDocs ds).docs.getD i emptyDoc = d' := by
      rw [ofDocs_docs, List.getD_eq_getElem?_getD, hd']
      rfl
    rw [hgetD]
    have htf : 1 ≤ calculate_md_score d' qt := calculate_md_score_pos htok
    have htf' : (0 : ℝ) < (calculate_md_score d' qt : ℝ) := by
      exact_mod_cast Nat.lt_of_lt_of_le Nat.zero_lt_one htf
    have hidf : (0 : ℝ) <
        idf (max (ofDocs ds).docs.length 1) ((ofDocs ds).doc_frequency qt) := by
      have hle : (ofDocs ds).doc_frequency qt ≤ max (ofDocs ds).docs.length 1 := by
        have := ofDocs_df_le ds qt
        rw [ofDocs_docs]
        omega
      have := one_le_idf hle
      linarith
    exact mul_pos htf' hidf

/-- Every ranked pair arises from a `scores` entry by pairing the score with
the stored document at its key. -/
theorem mem_rankedList (s : IndexSearch) (query : List Char) :
    ∀ p ∈ rankedList s query,
      ∃ pr ∈ scoresList s query, p = (pr.2, s.docs.getD pr.1 emptyDoc) := by
  unfold rankedList
  intro p hp
  rw [List.mem_mergeSort, List.mem_map] at hp
  obtain ⟨pr, h1, h2⟩ := hp
  exact ⟨pr, h1, h2.symm⟩

/-- Search results are drawn from the ranked list. -/
theorem mem_search (s : IndexSearch) (query : List Char) (k : ℤ) :
    ∀ p ∈ s.search query k, p ∈ rankedList s query := by
  unfold IndexSearch.search pyTake
  intro p hp
  exact (List.take_sublist _ _).subset hp

/-- The ranked list is sorted by non-increasing score. -/
theorem rankedList_sorted (s : IndexSearch) (query : List Char) :
    List.Sorted (fun a b : ℝ × Doc => b.1 ≤ a.1) (rankedList s query) := by
  unfold rankedList
  have h := @List.sorted_mergeSort (ℝ × Doc)
    (fun a b : ℝ × Doc => decide (b.1 ≤ a.1))
    (fun a b c hab hbc => by
      simp only [decide_eq_true_eq] at *
      exact le_trans hbc hab)
    (fun a b => by
      simp only [Bool.or_eq_true, decide_eq_true_eq]
      exact le_total b.1 a.1)
    ((scoresList s query).map (fun p => (p.2, s.docs.getD p.1 emptyDoc)))
  exact h.imp (fun hab => by simpa using hab)

/-! ### Claim theorems -/

/-- C1 (amended): one `add(d)` call appends `d`'s ordinal to `postings[t]`
once per occurrence of `t` among the tokens of `d`'s haystack (so several
times when the token recurs), not exactly once. -/
theorem add_appends_ordinal_per_occurrence (s : IndexSearch) (d : Doc)
    (t : List Char) :
    (s.add d).doc_indices t =
      s.doc_indices t ++
        List.replicate ((pyTokens (haystack d)).count t) s.docs.length :=
  add_di s d t

/-- C1 witness: the amended statement evaluated on a concrete index and
document. -/
theorem add_appends_ordinal_per_occurrence_witness :
    (IndexSearch.empty.add dHH).doc_indices "hello".toList =
      IndexSearch.empty.doc_indices "hello".toList ++
        List.replicate ((pyTokens (haystack dHH)).count "hello".toList)
          IndexSearch.empty.docs.length :=
  add_appends_ordinal_per_occurrence IndexSearch.empty dHH "hello".toList

/-- C1 counterexample: `hello` is a (single, distinct) token of `dHH`'s
haystack that occurs twice in it, and one `add` call appends the ordinal `0`
twice to `postings["hello"]`, refuting "exactly once per add call". -/
theorem add_postings_not_once_counterexample :
    "hello".toList ∈ pyTokens (haystack dHH) ∧
      (ofDocs [dHH]).doc_indices "hello".toList = [0, 0] ∧
      ((ofDocs [dHH]).doc_indices "hello".toList).count 0 = 2 :=
  ⟨by decide, by decide, by decide⟩

/-- C5: `add(d)` increments `documentFrequency[t]` by exactly one for each
distinct token `t` of `d`'s haystack, however often `t` recurs, and leaves
it unchanged for every other token. -/
theorem add_df_distinct_increment (s : IndexSearch) (d : Doc) (t : List Char) :
    (s.add d).doc_frequency t =
      s.doc_frequency t + (if t ∈ pyTokens (haystack d) then 1 else 0) :=
  add_df s d t

/-- C5 witness: the statement evaluated on a concrete index and document. -/
theorem add_df_distinct_increment_witness :
    (IndexSearch.empty.add dHH).doc_frequency "hello".toList =
      IndexSearch.empty.doc_frequency "hello".toList +
        (if "hello".toList ∈ pyTokens (haystack dHH) then 1 else 0) :=
  add_df_distinct_increment IndexSearch.empty dHH "hello".toList

/-- C10: after any sequence of `add` calls starting from a fresh index,
`documentFrequency[t]` equals the number of distinct ordinals in
`postings[t]`, every ordinal is below the number of stored documents, and
`postings[t]` is sorted in non-decreasing order. -/
theorem ofDocs_index_invariants (ds : List Doc) (t : List Char) :
    (ofDocs ds).doc_frequency t = ((ofDocs ds).doc_indices t).toFinset.card ∧
      (∀ i ∈ (ofDocs ds).doc_indices t, i < (ofDocs ds).docs.length) ∧
      List.Sorted (· ≤ ·) ((ofDocs ds).doc_indices t) := by
  obtain ⟨h1, h2, h3⟩ := ofDocs_inv ds t
  refine ⟨h1, ?_, h3⟩
  intro i hi
  rw [ofDocs_docs]
  exact h2 i hi

/-- C10 witness: the invariants evaluated on a concretely built index. -/
theorem ofDocs_index_invariants_witness :
    (ofDocs [dHH, dHW]).doc_frequency "hello".toList =
        ((ofDocs [dHH, dHW]).doc_indices "hello".toList).toFinset.card ∧
      (∀ i ∈ (ofDocs [dHH, dHW]).doc_indices "hello".toList,
        i < (ofDocs [dHH, dHW]).docs.length) ∧
      List.Sorted (· ≤ ·) ((ofDocs [dHH, dHW]).doc_indices "hello".toList) :=
  ofDocs_index_invariants [dHH, dHW] "hello".toList

/-- C8: the title boost has three strictly decreasing tiers (empty body,
short body, long body) and is monotonically non-increasing in body
length. -/
theorem title_boost_tiers (d1 d2 d3 : Doc) (h1 : d1.content.length = 0)
    (h2 : d2.content.length ≠ 0) (h2' : d2.content.length < SHORT_PAGE_THRESHOLD)
    (h3 : SHORT_PAGE_THRESHOLD ≤ d3.content.length) :
    (title_boost_for d2 < title_boost_for d1 ∧
      title_boost_for d3 < title_boost_for d2) ∧
    ∀ a b : Doc, a.content.length ≤ b.content.length →
      title_boost_for b ≤ title_boost_for a := by
  constructor
  · unfold title_boost_for TITLE_BOOST_EMPTY TITLE_BOOST_SHORT TITLE_BOOST_LONG
      SHORT_PAGE_THRESHOLD at *
    split_ifs <;> omega
  · intro a b hab
    unfold title_boost_for TITLE_BOOST_EMPTY TITLE_BOOST_SHORT TITLE_BOOST_LONG
      SHORT_PAGE_THRESHOLD
    split_ifs <;> omega

/-- C8 witness: the tier comparison evaluated at three concrete documents of
the three body-length classes. -/
theorem title_boost_tiers_witness :
    (title_boost_for ⟨[], [], "x".toList, []⟩ < title_boost_for ⟨[], [], [], []⟩ ∧
      title_boost_for ⟨[], [], List.replicate 800 'x', []⟩ <
        title_boost_for ⟨[], [], "x".toList, []⟩) ∧
    ∀ a b : Doc, a.content.length ≤ b.content.length →
      title_boost_for b ≤ title_boost_for a :=
  title_boost_tiers ⟨[], [], [], []⟩ ⟨[], [], "x".toList, []⟩
    ⟨[], [], List.replicate 800 'x', []⟩ (by decide) (by decide)
    (by show (1 : ℕ) < SHORT_PAGE_THRESHOLD; decide)
    (by show SHORT_PAGE_THRESHOLD ≤ (List.replicate 800 'x').length
        rw [List.length_replicate]
        decide)

/-- C9: a negative `k` is not rejected: `ranked[:k]` removes the last `|k|`
entries, returning the first `max(r - |k|, 0)` ranked results. -/
theorem search_negative_k (s : IndexSearch) (query : List Char) (k : ℤ)
    (hk : k < 0) :
    s.search query k =
      (rankedList s query).take ((rankedList s query).length - (-k).toNat) ∧
    (s.search query k).length =
      (rankedList s query).length - (-k).toNat := by
  unfold IndexSearch.search pyTake
  rw [if_neg (by omega)]
  have h : (((rankedList s query).length : ℤ) + k).toNat =
      (rankedList s query).length - (-k).toNat := by omega
  rw [h]
  refine ⟨rfl, ?_⟩
  rw [List.length_take]
  exact Nat.min_eq_left (Nat.sub_le _ _)

/-- C9 witness: the statement evaluated at `k = -1` on a concrete index. -/
theorem search_negative_k_witness :
    (ofDocs []).search "x".toList (-1) =
      (rankedList (ofDocs []) "x".toList).take
        ((rankedList (ofDocs []) "x".toList).length - (-(-1) : ℤ).toNat) ∧
    ((ofDocs []).search "x".toList (-1)).length =
      (rankedList (ofDocs []) "x".toList).length - (-(-1) : ℤ).toNat :=
  search_negative_k (ofDocs []) "x".toList (-1) (by decide)

/-- C6: for non-negative `k`, `search` returns at most `k` pairs, sorted by
non-increasing score, and `k = 0` yields the empty list. -/
theorem search_k_truncation (s : IndexSearch) (query : List Char) (k : ℤ)
    (hk : 0 ≤ k) :
    (s.search query k).length ≤ k.toNat ∧
      List.Sorted (fun a b : ℝ × Doc => b.1 ≤ a.1) (s.search query k) ∧
      (k = 0 → s.search query k = []) := by
  refine ⟨?_, ?_, ?_⟩
  · unfold IndexSearch.search pyTake
    rw [if_pos hk, List.length_take]
    exact inf_le_left
  · exact List.Pairwise.sublist
      (by unfold IndexSearch.search pyTake; exact List.take_sublist _ _)
      (rankedList_sorted s query)
  · intro h
    subst h
    unfold IndexSearch.search pyTake
    simp

/-- C6 witness: the statement evaluated at `k = 0` on a concrete index. -/
theorem search_k_truncation_witness :
    ((ofDocs [dHW]).search "hello".toList 0).length ≤ (0 : ℤ).toNat ∧
      List.Sorted (fun a b : ℝ × Doc => b.1 ≤ a.1)
        ((ofDocs [dHW]).search "hello".toList 0) ∧
      ((0 : ℤ) = 0 → (ofDocs [dHW]).search "hello".toList 0 = []) :=
  search_k_truncation (ofDocs [dHW]) "hello".toList 0 (by decide)

/-- C3: every returned pair of a search on a built index has a strictly
positive score, and a document none of whose haystack tokens is a query
token never appears among the results. -/
theorem search_positive_scores_and_exclusion (ds : List Doc)
    (query : List Char) (k : ℤ) :
    (∀ p ∈ (ofDocs ds).search query k, 0 < p.1) ∧
    (∀ d ∈ ds, (∀ t ∈ pyTokens (haystack d), t ∉ qTokens query) →
      ∀ p ∈ (ofDocs ds).search query k, p.2 ≠ d) := by
  constructor
  · intro p hp
    obtain ⟨pr, hpr, rfl⟩ := mem_rankedList _ _ p (mem_search _ _ _ p hp)
    exact (mem_scoresList ds query pr hpr).1
  · intro d hd hno p hp heq
    obtain ⟨pr, hpr, rfl⟩ := mem_rankedList _ _ p (mem_search _ _ _ p hp)
    obtain ⟨_, qt, hqt, hi⟩ := mem_scoresList ds query pr hpr
    obtain ⟨d', hd', htok⟩ := mem_ofDocs_di ds qt pr.1 hi
    have hgetD : (ofDocs ds).docs.getD pr.1 emptyDoc = d' := by
      rw [ofDocs_docs, List.getD_eq_getElem?_getD, hd']
      rfl
    have heq' : (ofDocs ds).docs.getD pr.1 emptyDoc = d := heq
    rw [hgetD] at heq'
    subst heq'
    exact hno qt htok hqt

/-- C3 witness: a search whose query token matches no haystack token of the
stored document, evaluated concretely. -/
theorem search_positive_scores_and_exclusion_witness :
    (∀ p ∈ (ofDocs [dHW]).search "zzz".toList 5, 0 < p.1) ∧
    (∀ p ∈ (ofDocs [dHW]).search "zzz".toList 5, p.2 ≠ dHW) := by
  refine ⟨(search_positive_scores_and_exclusion [dHW] "zzz".toList 5).1, ?_⟩
  exact (search_positive_scores_and_exclusion [dHW] "zzz".toList 5).2 dHW
    (by decide) (by decide)

/-! ### The single-document exact-score scenario -/

/-- Occurrence counts of a token among the haystack tokens, split by
component. -/
theorem count_pyTokens_haystack (d : Doc) (q : List Char) :
    (pyTokens (haystack d)).count q =
      (pyTokens (pyLower d.index_title)).count q
        + ((pyFindHeaders d.content).map
            (fun h => (pyTokens (pyLower h)).count q)).sum
        + ((pyFindLinks d.content).map
            (fun l => (pyTokens (pyLower l)).count q)).sum
        + ((pyFindCodeBlocks d.content).map
            (fun c => (pyTokens (pyLower c)).count q)).sum
        + (pyTokens (pyLower d.content)).count q := by
  rw [pyTokens_haystack]
  simp [List.count_append, List.count_flatten, List.map_map, Function.comp_def]
  ring

/-- A component without a substring occurrence of `q` contributes no token
occurrence of `q`. -/
theorem count_tokens_zero {x q : List Char} (h : pyCount x q = 0) :
    (pyTokens x).count q = 0 :=
  List.count_eq_zero.mpr (not_mem_pyTokens_of_pyCount_zero h)

/-- The base-case inverse document frequency: one document, document
frequency one. -/
theorem idf_one_one : idf 1 1 = 1 := by
  unfold idf
  norm_num

/-- C4: on an index holding exactly one document whose lowercased plain
content contains the query token exactly once (as a substring and as a
token), with no occurrence in the index title, headers, code blocks or link
text, `search(q, 1)` returns that document with score exactly
`ln(2/2) + 1 = 1.0`. -/
theorem single_doc_exact_score (d : Doc) (q query : List Char)
    (hq : qTokens query = [q])
    (hc1 : pyCount (pyLower d.content) q = 1)
    (hct : (pyTokens (pyLower d.content)).count q = 1)
    (ht0 : pyCount (pyLower d.index_title) q = 0)
    (hh0 : ∀ h ∈ pyFindHeaders d.content, pyCount (pyLower h) q = 0)
    (hcb0 : ∀ c ∈ pyFindCodeBlocks d.content, pyCount (pyLower c) q = 0)
    (hl0 : ∀ l ∈ pyFindLinks d.content, pyCount (pyLower l) q = 0) :
    (ofDocs [d]).search query 1 = [((1 : ℝ), d)] := by
  have hcnt : (pyTokens (haystack d)).count q = 1 := by
    rw [count_pyTokens_haystack]
    have e1 : (pyTokens (pyLower d.index_title)).count q = 0 :=
      count_tokens_zero ht0
    have e2 : ((pyFindHeaders d.content).map
        (fun h => (pyTokens (pyLower h)).count q)).sum = 0 := by
      apply List.sum_eq_zero
      intro x hx
      rw [List.mem_map] at hx
      obtain ⟨h0, hh, rfl⟩ := hx
      exact count_tokens_zero (hh0 h0 hh)
    have e3 : ((pyFindLinks d.content).map
        (fun l => (pyTokens (pyLower l)).count q)).sum = 0 := by
      apply List.sum_eq_zero
      intro x hx
      rw [List.mem_map] at hx
      obtain ⟨l0, hl, rfl⟩ := hx
      exact count_tokens_zero (hl0 l0 hl)
    have e4 : ((pyFindCodeBlocks d.content).map
        (fun c => (pyTokens (pyLower c)).count q)).sum = 0 := by
      apply List.sum_eq_zero
      intro x hx
      rw [List.mem_map] at hx
      obtain ⟨c0, hc, rfl⟩ := hx
      exact count_tokens_zero (hcb0 c0 hc)
    omega
  have hofd : ofDocs [d] = IndexSearch.empty.add d := rfl
  have hdi : (ofDocs [d]).doc_indices q = [0] := by
    rw [hofd, add_di, hcnt]
    rfl
  have hmem : q ∈ pyTokens (haystack d) :=
    List.count_pos_iff.mp (by omega)
  have hdf : (ofDocs [d]).doc_frequency q = 1 := by
    rw [hofd, add_df, if_pos hmem]
    rfl
  have hdocs : (ofDocs [d]).docs = [d] := ofDocs_docs [d]
  have hscore : calculate_md_score d q = 1 := by
    unfold calculate_md_score
    rw [hc1, ht0]
    have e2 : ((pyFindHeaders d.content).map
        (fun h => pyCount (pyLower h) q * 4)).sum = 0 := by
      apply List.sum_eq_zero
      intro x hx
      rw [List.mem_map] at hx
      obtain ⟨h0, hh, rfl⟩ := hx
      simp [hh0 h0 hh]
    have e3 : ((pyFindCodeBlocks d.content).map
        (fun c => pyCount (pyLower c) q * 2)).sum = 0 := by
      apply List.sum_eq_zero
      intro x hx
      rw [List.mem_map] at hx
      obtain ⟨c0, hc, rfl⟩ := hx
      simp [hcb0 c0 hc]
    have e4 : ((pyFindLinks d.content).map
        (fun l => pyCount (pyLower l) q * 2)).sum = 0 := by
      apply List.sum_eq_zero
      intro x hx
      rw [List.mem_map] at hx
      obtain ⟨l0, hl, rfl⟩ := hx
      simp [hl0 l0 hl]
    rw [e2, e3, e4]
    simp
  have hN : max (ofDocs [d]).docs.length 1 = 1 := by
    rw [hdocs]
    rfl
  have hgetD : (ofDocs [d]).docs.getD 0 emptyDoc = d := by
    rw [hdocs]
    rfl
  have hscores : scoresList (ofDocs [d]) query = [(0, (1 : ℝ))] := by
    unfold scoresList
    rw [hq, List.foldl_cons, List.foldl_nil, hdi, List.foldl_cons,
      List.foldl_nil, hgetD, hscore, hN, hdf, idf_one_one]
    norm_num [bump]
  have hranked : rankedList (ofDocs [d]) query = [((1 : ℝ), d)] := by
    unfold rankedList
    rw [hscores, List.map_cons, List.map_nil, hgetD]
    exact List.perm_singleton.mp (List.mergeSort_perm _ _)
  unfold IndexSearch.search pyTake
  rw [hranked]
  norm_num

/-- C4 witness: the scenario evaluated on a concrete one-document index and
the query `fox`. -/
theorem single_doc_exact_score_witness :
    (ofDocs [dFox]).search "fox".toList 1 = [((1 : ℝ), dFox)] :=
  single_doc_exact_score dFox "fox".toList "fox".toList (by decide) (by decide)
    (by decide) (by decide) (by decide) (by decide) (by decide)

/-! ### Snippet claims -/

/-- Bounds for the truncation step: the output never exceeds
`max_chars + 2` characters (`max_chars - 1` kept plus the three-character
ellipsis), and any output longer than `max_chars` ends with the ellipsis. -/
theorem truncateSnippet_bounds (t : List Char) (mc : ℕ) (hmc : 1 ≤ mc) :
    (truncateSnippet t mc).length ≤ mc + 2 ∧
    (mc < (truncateSnippet t mc).length → ellipsis <:+ truncateSnippet t mc) := by
  unfold truncateSnippet
  split_ifs with h
  · constructor
    · rw [List.length_append]
      have h1 : (pyTake ((mc : ℤ) - 1) t).length ≤ mc - 1 := by
        have h1a : (pyTake ((mc : ℤ) - 1) t).length ≤ ((mc : ℤ) - 1).toNat := by
          unfold pyTake
          rw [if_pos (by omega), List.length_take]
          exact inf_le_left
        omega
      have h2 : (pyRstrip (pyTake ((mc : ℤ) - 1) t)).length ≤
          (pyTake ((mc : ℤ) - 1) t).length := by
        unfold pyRstrip
        rw [List.length_reverse]
        calc (List.dropWhile isPySpace (pyTake ((mc : ℤ) - 1) t).reverse).length
            ≤ (pyTake ((mc : ℤ) - 1) t).reverse.length :=
              (List.dropWhile_sublist _).length_le
          _ = (pyTake ((mc : ℤ) - 1) t).length := List.length_reverse _
      have h3 : ellipsis.length = 3 := rfl
      omega
    · intro _
      exact List.suffix_append _ _
  · exact ⟨by omega, fun hlt => by omega⟩

/-- C2 (amended): for a hydrated page with nonempty content and
`maxChars ≥ 1`, the snippet never exceeds `maxChars + 2` characters, and a
result longer than `maxChars` was truncated and ends with the ellipsis
marker. -/
theorem make_snippet_length_bound (pg : Page) (dt : List Char) (mc : ℕ)
    (hne : pg.content.isEmpty = false) (hmc : 1 ≤ mc) :
    (make_snippet (some pg) dt mc).length ≤ mc + 2 ∧
    (mc < (make_snippet (some pg) dt mc).length →
      ellipsis <:+ make_snippet (some pg) dt mc) := by
  have hex : ∃ t, make_snippet (some pg) dt mc = truncateSnippet t mc := by
    unfold make_snippet
    simp only [hne, Bool.false_eq_true, if_false]
    exact ⟨_, rfl⟩
  obtain ⟨t, ht⟩ := hex
  rw [ht]
  exact truncateSnippet_bounds t mc hmc

/-- C2 witness: the bounds evaluated on the `maxChars = 10` long-sentence
scenario. -/
theorem make_snippet_length_bound_witness :
    (make_snippet (some pgLong) "T".toList 10).length ≤ 10 + 2 ∧
    (10 < (make_snippet (some pgLong) "T".toList 10).length →
      ellipsis <:+ make_snippet (some pgLong) "T".toList 10) :=
  make_snippet_length_bound pgLong "T".toList 10 (by decide) (by decide)

/-- C2 counterexample: with `maxChars = 10` and a long single-sentence body,
the snippet is the 12-character string `abcdefghi...` — more than
`maxChars` characters, and not a 10-character string. -/
theorem make_snippet_exceeds_max_chars_counterexample :
    make_snippet (some pgLong) "T".toList 10 = "abcdefghi...".toList ∧
    10 < (make_snippet (some pgLong) "T".toList 10).length :=
  ⟨by decide, by decide⟩

/-- C7 (amended): when the first cleaned line is a heading or matches the
display title (normalized, case-insensitive), `make_snippet` drops it and
computes the snippet from the remaining lines only.  (The fallback may still
return the display title itself when nothing usable remains.) -/
theorem make_snippet_drops_title_line (pg : Page) (dt : List Char) (mc : ℕ)
    (first : List Char) (rest : List (List Char))
    (hl : linesOf pg = first :: rest) (hc : dropLeadLine first dt = true) :
    make_snippet (some pg) dt mc = snippetFromLines rest dt mc := by
  have hne : pg.content.isEmpty = false := by
    cases hcc : pg.content with
    | nil =>
      exfalso
      have hnil : linesOf pg = [] := by
        unfold linesOf
        rw [hcc]
        rfl
      rw [hl] at hnil
      exact List.noConfusion hnil
    | cons a l => rfl
  unfold make_snippet snippetFromLines
  simp only [hne, Bool.false_eq_true, if_false, hl, hc, if_true]

/-- C7 witness: the drop evaluated on a body whose first line duplicates the
display title. -/
theorem make_snippet_drops_title_line_witness :
    make_snippet (some pgTitleMore) "Title".toList 300 =
      snippetFromLines ["More text here.".toList] "Title".toList 300 :=
  make_snippet_drops_title_line pgTitleMore "Title".toList 300 "Title".toList
    ["More text here.".toList] (by decide) (by decide)

/-- C7 counterexample: a body that is exactly the display title line
satisfies the claim's hypothesis, yet the returned snippet is that very
title line (the display-title fallback), so the output does have the title
line as its prefix. -/
theorem make_snippet_title_prefix_counterexample :
    linesOf pgTitle = ["Title".toList] ∧
    dropLeadLine "Title".toList "Title".toList = true ∧
    make_snippet (some pgTitle) "Title".toList 300 = "Title".toList :=
  ⟨by decide, by decide, by decide⟩
